import Mathlib

/-!
Verification development for the endorphin rollup plugin
(`src/index.ts`, plus the earlier draft variant `src/unnamed/part_000`).

The TypeScript source is shallowly embedded: JavaScript numbers are
modelled as `Nat`/`Int` with explicit wrap-around where the source relies
on 32-bit operator semantics, JS objects used as string-keyed dictionaries
are modelled as insertion-ordered association lists, and the `source-map`
library is modelled at its interface level.
-/

namespace EndorphinPlugin

/-! ### JavaScript string and number primitives -/

/-- UTF-16 code units of one character, as produced by JS `charCodeAt`:
characters below `0x10000` are a single unit, larger scalar values are a
surrogate pair. -/
def utf16Units (c : Char) : List Nat :=
  let v := c.toNat
  if v < 65536 then [v]
  else [55296 + (v - 65536) / 1024, 56320 + (v - 65536) % 1024]

/-- The sequence `s.charCodeAt(0), …, s.charCodeAt(s.length - 1)` of a JS
string. -/
def charCodes (s : String) : List Nat :=
  (s.data.map utf16Units).flatten

/-- JS `x << 16` for a non-negative number `x`: the operand is reduced to a
32-bit value, shifted, truncated to 32 bits, and read back as a signed
32-bit integer. -/
def jsShl16 (n : Nat) : Int :=
  let v := (n % 4294967296) * 65536 % 4294967296
  if v < 2147483648 then (v : Int) else (v : Int) - 4294967296

/-- Digit character of JS `Number.prototype.toString(36)`:
`0`–`9` then `a`–`z`. -/
def base36Char (n : Nat) : Char :=
  if n < 10 then Char.ofNat (48 + n) else Char.ofNat (87 + n)

/-- Digits (most significant first) accumulated for base-36 rendering. -/
def natToBase36Aux : Nat → List Char → List Char
  | 0, acc => acc
  | n + 1, acc => natToBase36Aux ((n + 1) / 36) (base36Char ((n + 1) % 36) :: acc)
decreasing_by exact Nat.div_lt_self (Nat.succ_pos n) (by omega)

/-- Base-36 rendering of a natural number, as JS `n.toString(36)`. -/
def natToBase36 (n : Nat) : String :=
  if n = 0 then "0" else String.mk (natToBase36Aux n [])

/-- JS `i.toString(36)` for an integer value: negative values render as a
minus sign followed by the digits of the magnitude. -/
def jsIntToString36 (i : Int) : String :=
  if i < 0 then "-" ++ natToBase36 i.natAbs else natToBase36 i.toNat

/-! ### Scope token generator (`defaultCSSOptions.scope`) -/

/-- One iteration of the rolling (Adler32-style) checksum loop in
`defaultCSSOptions.scope`: `s1 = (s1 + code) % 65521; s2 = (s2 + s1) % 65521`. -/
def adlerStep (p : Nat × Nat) (code : Nat) : Nat × Nat :=
  let s1 := (p.1 + code) % 65521
  (s1, (p.2 + s1) % 65521)

/-- The checksum pair `(s1, s2)` produced by the loop of
`defaultCSSOptions.scope` over a file path. -/
def adlerPair (filePath : String) : Nat × Nat :=
  (charCodes filePath).foldl adlerStep (1, 0)

/-- The combined integer `(s2 << 16) + s1` of `defaultCSSOptions.scope`,
under JS 32-bit shift semantics. -/
def combinedChecksum (filePath : String) : Int :=
  jsShl16 (adlerPair filePath).2 + ((adlerPair filePath).1 : Int)

/-- `defaultCSSOptions.scope` of `src/index.ts` (lines 337-347): the default
CSS scope token. The earlier variant at lines 67-77 is identical except
that its fixed prefix is `end` instead of `e`. -/
def defaultScope (filePath : String) : String :=
  "e" ++ jsIntToString36 (combinedChecksum filePath)

/-- Modelled from the spec: the checksum described in §4.3 / C9, written as
the spec phrases it — starting from accumulators `s1 = 1` and `s2 = 0`, fold
each character code with `s1 = (s1 + code) % 65521` and
`s2 = (s2 + s1) % 65521`. -/
def specChecksum : List Nat → Nat → Nat → Nat × Nat
  | [], s1, s2 => (s1, s2)
  | c :: rest, s1, s2 =>
    let s1n := (s1 + c) % 65521
    specChecksum rest s1n ((s2 + s1n) % 65521)

/-- Modelled from the spec: the C9 description of the scope function —
combine the two accumulators as `(s2 << 16) + s1` and render that integer
in base 36 behind the short fixed prefix. -/
def specScopeToken (filePath : String) : String :=
  let p := specChecksum (charCodes filePath) 1 0
  "e" ++ jsIntToString36 (jsShl16 p.2 + (p.1 : Int))

/-- Is `c` a character of the base-36 alphabet (decimal digits and
lowercase latin letters)? -/
def isBase36Char (c : Char) : Bool :=
  (('0' ≤ c) && (c ≤ '9')) || (('a' ≤ c) && (c ≤ 'z'))

/-- All characters after the one-character prefix belong to the base-36
alphabet. -/
def tokenBase36Only (s : String) : Bool :=
  (s.data.drop 1).all isBase36Char

/-- All characters after the one-character prefix belong to the base-36
alphabet or are a minus sign. -/
def tokenBase36OrMinus (s : String) : Bool :=
  (s.data.drop 1).all (fun c => isBase36Char c || c == '-')

/-! ### Basic lemmas about base-36 rendering -/

theorem base36Char_is36 : ∀ n, n < 36 → isBase36Char (base36Char n) = true := by
  decide

theorem natToBase36Aux_all (n : Nat) (acc : List Char)
    (hacc : acc.all isBase36Char = true) :
    (natToBase36Aux n acc).all isBase36Char = true := by
  induction n using Nat.strong_induction_on generalizing acc with
  | _ n ih =>
    match n with
    | 0 => simpa [natToBase36Aux] using hacc
    | m + 1 =>
      rw [natToBase36Aux]
      exact ih ((m + 1) / 36) (Nat.div_lt_self (Nat.succ_pos m) (by omega))
        _ (by
          simp only [List.all_cons, Bool.and_eq_true]
          exact ⟨base36Char_is36 _ (Nat.mod_lt _ (by omega)), hacc⟩)

theorem natToBase36_all (n : Nat) :
    (natToBase36 n).data.all isBase36Char = true := by
  unfold natToBase36
  split
  · decide
  · exact natToBase36Aux_all n [] rfl

theorem jsIntToString36_nonneg (i : Int) (h : 0 ≤ i) :
    ((jsIntToString36 i).data.all isBase36Char) = true := by
  unfold jsIntToString36
  rw [if_neg (by omega)]
  exact natToBase36_all _

theorem jsIntToString36_all_or_minus (i : Int) :
    ((jsIntToString36 i).data.all (fun c => isBase36Char c || c == '-')) = true := by
  unfold jsIntToString36
  split
  · show (("-" ++ natToBase36 i.natAbs).data.all _) = true
    rw [String.data_append]
    simp only [List.all_append, Bool.and_eq_true]
    constructor
    · decide
    · have h := natToBase36_all i.natAbs
      revert h
      simp only [List.all_eq_true]
      intro h c hc
      simp [h c hc]
  · exact (by
      have h := natToBase36_all i.toNat
      revert h
      simp only [List.all_eq_true]
      intro h c hc
      simp [h c hc])

theorem foldl_adlerStep_eq_specChecksum (l : List Nat) (s1 s2 : Nat) :
    l.foldl adlerStep (s1, s2) = specChecksum l s1 s2 := by
  induction l generalizing s1 s2 with
  | nil => rfl
  | cons c rest ih =>
    rw [List.foldl_cons, specChecksum]
    exact ih _ _

theorem jsShl16_nonneg_of_lt (n : Nat) (h : n < 32768) : 0 ≤ jsShl16 n := by
  unfold jsShl16
  have h1 : n % 4294967296 = n := Nat.mod_eq_of_lt (by omega)
  have h2 : n * 65536 % 4294967296 = n * 65536 := Nat.mod_eq_of_lt (by omega)
  rw [h1, h2, if_pos (by omega)]
  positivity

theorem defaultScope_data (filePath : String) :
    (defaultScope filePath).data =
      'e' :: (jsIntToString36 (combinedChecksum filePath)).data := by
  unfold defaultScope
  rw [String.data_append]
  rfl

/-- C9: `defaultCSSOptions.scope` is exactly the spec-described computation:
the rolling two-accumulator checksum starting from `s1 = 1`, `s2 = 0`, folded
with `s1 = (s1 + code) % 65521`, `s2 = (s2 + s1) % 65521`, combined as
`(s2 << 16) + s1` and rendered in base 36 behind the fixed prefix; being a
pure function of the identity string, repeated calls on the same identity
return the same token. -/
theorem c9_scope_is_spec_checksum (filePath : String) :
    defaultScope filePath = specScopeToken filePath ∧
    (∀ id1 id2 : String, id1 = id2 → defaultScope id1 = defaultScope id2) := by
  constructor
  · unfold defaultScope specScopeToken combinedChecksum adlerPair
    rw [foldl_adlerStep_eq_specChecksum]
  · intro id1 id2 h
    rw [h]

theorem c9_scope_is_spec_checksum_witness :
    defaultScope "a.html" = specScopeToken "a.html" ∧
    defaultScope "a.html" = defaultScope "a.html" :=
  ⟨(c9_scope_is_spec_checksum "a.html").1,
   (c9_scope_is_spec_checksum "a.html").2 "a.html" "a.html" rfl⟩

/-- C3 (amended): every character of the default scope token after the fixed
prefix is a base-36 character or a minus sign, and whenever the checksum
accumulator `s2` stays below 32768 (so the JS 32-bit shift in
`(s2 << 16) + s1` does not wrap to a negative value) the characters after
the prefix are base-36 characters only. -/
theorem c3_scope_token_alphabet (filePath : String) :
    tokenBase36OrMinus (defaultScope filePath) = true ∧
    ((adlerPair filePath).2 < 32768 →
      tokenBase36Only (defaultScope filePath) = true) := by
  constructor
  · unfold tokenBase36OrMinus
    rw [defaultScope_data]
    simpa using jsIntToString36_all_or_minus (combinedChecksum filePath)
  · intro h
    unfold tokenBase36Only
    rw [defaultScope_data]
    have hnn : 0 ≤ combinedChecksum filePath := by
      unfold combinedChecksum
      have := jsShl16_nonneg_of_lt (adlerPair filePath).2 h
      positivity
    simpa using jsIntToString36_nonneg _ hnn

theorem c3_scope_token_alphabet_witness :
    (adlerPair "a.html").2 < 32768 ∧
    tokenBase36Only (defaultScope "a.html") = true :=
  ⟨by decide, (c3_scope_token_alphabet "a.html").2 (by decide)⟩

/-- C3 is false as stated: for the 23-character identity `"zzz…z"` the
accumulator `s2` reaches 33695 ≥ 32768, the 32-bit shift wraps negative, and
the token contains a minus sign, which is not in the base-36 alphabet. -/
theorem c3_scope_token_alphabet_cx :
    (adlerPair "zzzzzzzzzzzzzzzzzzzzzzz").2 = 33695 ∧
    tokenBase36Only (defaultScope "zzzzzzzzzzzzzzzzzzzzzzz") = false := by
  constructor
  · decide
  · decide

/-! ### JS objects used as dictionaries, and the synthetic module registry -/

/-- JS property write `obj[k] = v` on an object used as a dictionary: an
existing key keeps its position and gets the new value, a new key is
appended. -/
def objSet : List (String × String) → String → String → List (String × String)
  | [], k, v => [(k, v)]
  | p :: rest, k, v => if p.1 = k then (k, v) :: rest else p :: objSet rest k v

/-- JS own-property read of a string-valued dictionary entry, `none` for
an absent own key. -/
def lookupObj (obj : List (String × String)) (k : String) : Option String :=
  (obj.find? (fun p => p.1 = k)).map (fun p => p.2)

/-- The own property names of `Object.prototype`, which a plain object
literal `{}` inherits: the ECMAScript core methods plus the Annex B
accessors Node installs. The `in` operator consults this chain. -/
def objectProtoKeys : List String :=
  ["constructor", "hasOwnProperty", "isPrototypeOf", "propertyIsEnumerable",
   "toLocaleString", "toString", "valueOf", "__proto__",
   "__defineGetter__", "__defineSetter__", "__lookupGetter__", "__lookupSetter__"]

/-- A value read out of the registry object: a registered source string,
a non-null value inherited from `Object.prototype` (a method, or the
`__proto__` accessor result), or the hook's `null`. -/
inductive JSValue where
  | str (s : String)
  | protoFn (name : String)
  | null
deriving DecidableEq

/-- JS `id in jsResources` for the plain object literal `jsResources`:
true for an own key and for every name inherited from
`Object.prototype`. -/
def jsIn (jsResources : List (String × String)) (id : String) : Bool :=
  (jsResources.find? (fun p => p.1 = id)).isSome || id ∈ objectProtoKeys

/-- JS `jsResources[id]` under `jsIn`: an own key (which shadows the
prototype) yields its stored string, otherwise the inherited
`Object.prototype` member. -/
def jsGet (jsResources : List (String × String)) (id : String) : JSValue :=
  match lookupObj jsResources id with
  | some v => .str v
  | none => if id ∈ objectProtoKeys then .protoFn id else .null

/-- The `load` hook (`src/index.ts` lines 399-405, identically lines
102-104 and `part_000` lines 63-69):
`id in jsResources ? jsResources[id] : null`. -/
def load (jsResources : List (String × String)) (id : String) : JSValue :=
  if jsIn jsResources id then jsGet jsResources id else .null

/-- The `resolveId` hook (`src/index.ts` lines 403-405):
`id in jsResources ? id : null`. -/
def resolveId (jsResources : List (String × String)) (id : String) : Option String :=
  if jsIn jsResources id then some id else none

theorem lookupObj_objSet_self (r : List (String × String)) (k v : String) :
    lookupObj (objSet r k v) k = some v := by
  induction r with
  | nil => simp [objSet, lookupObj]
  | cons p rest ih =>
    by_cases h : p.1 = k
    · simp [objSet, h, lookupObj]
    · simp only [objSet, if_neg h, lookupObj, List.find?_cons]
      rw [show (decide (p.1 = k)) = false from by simpa using h]
      exact ih

theorem lookupObj_objSet_ne (r : List (String × String)) (k v k2 : String)
    (h : k2 ≠ k) : lookupObj (objSet r k v) k2 = lookupObj r k2 := by
  induction r with
  | nil => simp [objSet, lookupObj, List.find?_cons, Ne.symm h]
  | cons p rest ih =>
    by_cases hp : p.1 = k
    · simp only [objSet, if_pos hp, lookupObj, List.find?_cons]
      have h1 : (decide ((k, v).1 = k2)) = false := by simp [Ne.symm h]
      have h2 : (decide (p.1 = k2)) = false := by simp [hp, Ne.symm h]
      rw [h1, h2]
    · simp only [objSet, if_neg hp, lookupObj, List.find?_cons]
      by_cases h2 : p.1 = k2
      · simp [h2]
      · rw [show (decide (p.1 = k2)) = false from by simpa using h2]
        exact ih

/-- C10 (amended): `resolveId` answers with the id exactly when `load`
answers a non-null value — both decide by the JS `in` operator on the
registry object, which consults the prototype chain — and both answer
`null` for every id that was never registered and is not a property name
inherited from `Object.prototype`; a registered id always answers its
stored content. For a never-registered inherited name (such as
`"toString"`) `in` is true, so `resolveId` answers the id and `load`
answers the inherited non-null value. -/
theorem c10_resolve_load_agree (r : List (String × String)) (id : String) :
    (resolveId r id = some id ↔ load r id ≠ JSValue.null) ∧
    (lookupObj r id = none → id ∉ objectProtoKeys →
      load r id = JSValue.null ∧ resolveId r id = none) ∧
    (∀ v, lookupObj r id = some v →
      load r id = JSValue.str v ∧ resolveId r id = some id) ∧
    (lookupObj r id = none → id ∈ objectProtoKeys →
      load r id = JSValue.protoFn id ∧ resolveId r id = some id) := by
  unfold load resolveId jsIn jsGet lookupObj
  cases h : (r.find? (fun p => p.1 = id)) with
  | none =>
    by_cases hp : id ∈ objectProtoKeys
    · simp [h, hp]
    · simp [h, hp]
  | some p => simp [h]

theorem c10_resolve_load_agree_witness :
    lookupObj [("./a_0.js", "code")] "./b_0.js" = none ∧
    ("./b_0.js" ∉ objectProtoKeys) ∧
    load [("./a_0.js", "code")] "./b_0.js" = JSValue.null ∧
    resolveId [("./a_0.js", "code")] "./b_0.js" = none ∧
    load [("./a_0.js", "code")] "./a_0.js" = JSValue.str "code" :=
  ⟨by decide, by decide,
   ((c10_resolve_load_agree [("./a_0.js", "code")] "./b_0.js").2.1
     (by decide) (by decide)).1,
   ((c10_resolve_load_agree [("./a_0.js", "code")] "./b_0.js").2.1
     (by decide) (by decide)).2,
   ((c10_resolve_load_agree [("./a_0.js", "code")] "./a_0.js").2.2.1 "code"
     (by decide)).1⟩

/-- C10 is false as stated: the id `"toString"` was never registered, yet
JS `in` finds it on the prototype chain of the object literal, so
`resolveId` answers the id and `load` answers the inherited non-null
`Object.prototype.toString` instead of `null`. -/
theorem c10_resolve_load_agree_cx :
    lookupObj [] "toString" = none ∧
    resolveId [] "toString" = some "toString" ∧
    load [] "toString" = JSValue.protoFn "toString" ∧
    JSValue.protoFn "toString" ≠ JSValue.null := by
  refine ⟨by decide, by decide, by decide, by decide⟩

/-! ### `createAssetUrl` and the virtual path normalization -/

/-- Modelled from Node's `path.extname` (an external library collaborator):
the extension is the part of the basename from its final dot, empty when
there is no dot, when the only dot is the leading character, or when the
basename is `".."`. -/
def extname (s : String) : String :=
  let b := (s.data.reverse.takeWhile (fun c => c ≠ '/')).reverse
  let suf := if '.' ∈ b
    then '.' :: (b.reverse.takeWhile (fun c => c ≠ '.')).reverse
    else []
  if suf.length = b.length then ""
  else if b = ['.', '.'] then ""
  else String.mk suf

/-- JS `s.slice(0, -n)`: drop the last `n` characters; for `n = 0` this is
`s.slice(0, 0)`, the empty string (`-0 === 0`). -/
def sliceToNegLen (s : String) (n : Nat) : String :=
  if n = 0 then "" else String.mk (s.data.take (s.data.length - n))

/-- `createAssetUrl` (`src/index.ts` lines 598-601, identically `part_000`
lines 173-176). -/
def createAssetUrl (baseUrl : String) (ext : String) (index : Nat) : String :=
  sliceToNegLen baseUrl (extname baseUrl).length ++ "_" ++ toString index ++ ext

/-- The normalization of `transform` (`src/index.ts` lines 424-426): when
the first character is not `.`, `/` or `@`, the path is prefixed with
`./`. An empty string has no first character and is prefixed. -/
def normalizeAssetUrl (u : String) : String :=
  match u.data with
  | [] => "./" ++ u
  | c :: _ => if c = '.' ∨ c = '/' ∨ c = '@' then u else "./" ++ u

/-- Does `s` begin with the literal character sequence of `pre`? -/
def beginsWith (s pre : String) : Bool :=
  s.data.take pre.data.length == pre.data

/-- C6 (amended): the virtual path is
`stripExtension(documentUrl) + "_" + index + extension`, and the path
handed to the registry begins with the character `.`, `/` or `@` — the
check is on the first character only, so a conforming first character is
enough and otherwise `./` is prepended. -/
theorem c6_asset_url_shape (baseUrl ext : String) (i : Nat) :
    createAssetUrl baseUrl ext i =
      sliceToNegLen baseUrl (extname baseUrl).length ++ "_" ++ toString i ++ ext ∧
    ((normalizeAssetUrl (createAssetUrl baseUrl ext i)).data.head? = some '.' ∨
     (normalizeAssetUrl (createAssetUrl baseUrl ext i)).data.head? = some '/' ∨
     (normalizeAssetUrl (createAssetUrl baseUrl ext i)).data.head? = some '@') ∧
    (normalizeAssetUrl (createAssetUrl baseUrl ext i) = createAssetUrl baseUrl ext i ∨
     normalizeAssetUrl (createAssetUrl baseUrl ext i) =
       "./" ++ createAssetUrl baseUrl ext i) := by
  refine ⟨rfl, ?_, ?_⟩
  · unfold normalizeAssetUrl
    cases h : (createAssetUrl baseUrl ext i).data with
    | nil => left; simp [String.data_append, show "./".data = ['.', '/'] from rfl]
    | cons c rest =>
      dsimp only
      by_cases hc : c = '.' ∨ c = '/' ∨ c = '@'
      · rw [if_pos hc, h]
        rcases hc with hc | hc | hc
        · left; simp [hc]
        · right; left; simp [hc]
        · right; right; simp [hc]
      · rw [if_neg hc]
        left; simp [String.data_append, show "./".data = ['.', '/'] from rfl]
  · unfold normalizeAssetUrl
    cases h : (createAssetUrl baseUrl ext i).data with
    | nil => right; rfl
    | cons c rest =>
      dsimp only
      by_cases hc : c = '.' ∨ c = '/' ∨ c = '@'
      · rw [if_pos hc]; left; rfl
      · rw [if_neg hc]; right; rfl

/-- C6 is false as stated: for the document URL `".a.html"` the assigned
path `".a_0.js"` begins with `.` but not with `./`, `/` or `@`, and no
`./` is prepended, because the source checks only the first character. -/
theorem c6_asset_url_shape_cx :
    normalizeAssetUrl (createAssetUrl ".a.html" ".js" 0) = ".a_0.js" ∧
    beginsWith (normalizeAssetUrl (createAssetUrl ".a.html" ".js" 0)) "./" = false ∧
    beginsWith (normalizeAssetUrl (createAssetUrl ".a.html" ".js" 0)) "/" = false ∧
    beginsWith (normalizeAssetUrl (createAssetUrl ".a.html" ".js" 0)) "@" = false := by
  refine ⟨by decide, by decide, by decide, by decide⟩

/-! ### Inline script registration (`transform`, lines 421-431) -/

/-- A script entry of the parsed template AST, as the plugin reads and
mutates it. `none` models an absent (`undefined`) field. -/
structure ScriptNode where
  mime : String
  content : Option String
  transformed : Option String
  url : String
deriving DecidableEq

/-- JS truthiness of a possibly absent string: `undefined` and the empty
string are falsy. -/
def jsTruthyStr : Option String → Bool
  | none => false
  | some s => !(s == "")

def defaultScriptType : String := "text/javascript"

def lookupType (types : List (String × String)) (mime : String) : Option String :=
  (types.find? (fun p => p.1 = mime)).map (fun p => p.2)

/-- `options.types[script.mime] || options.types[defaultScriptType]`: a
falsy primary lookup falls back to the default script type; a missing
result stringifies as `"undefined"` inside the template literal. -/
def scriptExtension (types : List (String × String)) (mime : String) : String :=
  let primary := lookupType types mime
  let chosen := if jsTruthyStr primary then primary
    else lookupType types defaultScriptType
  match chosen with
  | some e => e
  | none => "undefined"

/-- The virtual path assigned to inline script `i` of a document. -/
def assetPathOf (docUrl : String) (types : List (String × String)) (i : Nat)
    (s : ScriptNode) : String :=
  normalizeAssetUrl (createAssetUrl docUrl (scriptExtension types s.mime) i)

/-- What the registry stores for a script:
`script.transformed || script.content`. -/
def storedContentOf (s : ScriptNode) : String :=
  if jsTruthyStr s.transformed then s.transformed.getD "" else s.content.getD ""

/-- One step of the `scripts.forEach` body: register an inline script under
its virtual path and blank its `content`/`transformed` fields, rewriting
`script.url` to the virtual path. A script without truthy content is left
alone. -/
def registerScript (docUrl : String) (types : List (String × String))
    (reg : List (String × String)) (i : Nat) (s : ScriptNode) :
    List (String × String) × ScriptNode :=
  if jsTruthyStr s.content then
    (objSet reg (assetPathOf docUrl types i s) (storedContentOf s),
     { s with url := assetPathOf docUrl types i s,
              transformed := none, content := none })
  else (reg, s)

/-- The whole `scripts.forEach` loop, threading the registry. -/
def processScripts (docUrl : String) (types : List (String × String))
    (reg : List (String × String)) :
    List ScriptNode → Nat → List (String × String) × List ScriptNode
  | [], _ => (reg, [])
  | s :: rest, i =>
    let step := registerScript docUrl types reg i s
    let r := processScripts docUrl types step.1 rest (i + 1)
    (r.1, step.2 :: r.2)

/-- The virtual paths written by the loop over `scripts`, starting at
index `i`. -/
def assetPathsOf (docUrl : String) (types : List (String × String)) :
    List ScriptNode → Nat → List String
  | [], _ => []
  | s :: rest, i =>
    (if jsTruthyStr s.content then [assetPathOf docUrl types i s] else [])
      ++ assetPathsOf docUrl types rest (i + 1)

theorem processScripts_lookup_stable (docUrl : String)
    (types : List (String × String)) :
    ∀ (scripts : List ScriptNode) (i : Nat) (reg : List (String × String))
      (k : String), k ∉ assetPathsOf docUrl types scripts i →
      lookupObj (processScripts docUrl types reg scripts i).1 k = lookupObj reg k := by
  intro scripts
  induction scripts with
  | nil => intro i reg k _; rfl
  | cons s rest ih =>
    intro i reg k hk
    simp only [assetPathsOf, List.mem_append] at hk
    push_neg at hk
    simp only [processScripts, registerScript]
    by_cases hc : jsTruthyStr s.content = true
    · rw [if_pos hc]
      have hk1 : k ≠ assetPathOf docUrl types i s := by
        intro he
        exact hk.1 (by simp [hc, he])
      rw [ih (i + 1) _ k hk.2]
      exact lookupObj_objSet_ne _ _ _ _ hk1
    · rw [if_neg hc]
      exact ih (i + 1) _ k hk.2

theorem processScripts_registers (docUrl : String)
    (types : List (String × String)) :
    ∀ (scripts : List ScriptNode) (i : Nat) (reg : List (String × String))
      (j : Nat) (s : ScriptNode), scripts[j]? = some s →
      jsTruthyStr s.content = true →
      assetPathOf docUrl types (i + j) s ∉
        assetPathsOf docUrl types (scripts.drop (j + 1)) (i + j + 1) →
      lookupObj (processScripts docUrl types reg scripts i).1
          (assetPathOf docUrl types (i + j) s) = some (storedContentOf s) ∧
      (processScripts docUrl types reg scripts i).2[j]? =
        some { s with url := assetPathOf docUrl types (i + j) s,
                      transformed := none, content := none } := by
  intro scripts
  induction scripts with
  | nil => intro i reg j s hj; simp at hj
  | cons s0 rest ih =>
    intro i reg j s hj hc hnot
    match j with
    | 0 =>
      simp only [List.getElem?_cons_zero, Option.some_inj] at hj
      subst hj
      simp only [List.drop_succ_cons, List.drop_zero] at hnot
      simp only [processScripts, registerScript, if_pos hc]
      constructor
      · rw [processScripts_lookup_stable docUrl types rest (i + 1) _ _
          (by simpa using hnot)]
        simpa using lookupObj_objSet_self _ _ _
      · simp
    | j' + 1 =>
      simp only [List.getElem?_cons_succ] at hj
      have harr : i + (j' + 1) = (i + 1) + j' := by omega
      have hnot2 : assetPathOf docUrl types ((i + 1) + j') s ∉
          assetPathsOf docUrl types (rest.drop (j' + 1)) ((i + 1) + j' + 1) := by
        rw [← harr]
        simpa [show i + (j' + 1) + 1 = i + 1 + (j' + 1) from by omega] using hnot
      have := ih (i + 1) (registerScript docUrl types reg i s0).1 j' s hj hc hnot2
      rw [harr]
      constructor
      · simp only [processScripts]
        exact this.1
      · simp only [processScripts, List.getElem?_cons_succ]
        exact this.2

/-- C2 (amended): for every inline script at index `j` with truthy content,
provided the virtual paths assigned in the document are pairwise distinct
(the later scripts do not reuse this path), loading the assigned path
returns exactly the content captured at registration — the parser-supplied
`transformed` text when that is truthy, otherwise the original inline
content — the entry is never changed afterwards (keys outside the paths
written by the loop keep their previous value), and the script node the
generated code is produced from carries that same virtual path as its
`url`. -/
theorem c2_registry_roundtrip (docUrl : String) (types : List (String × String))
    (reg : List (String × String)) (scripts : List ScriptNode) (i j : Nat)
    (s : ScriptNode) (hj : scripts[j]? = some s)
    (hc : jsTruthyStr s.content = true)
    (hnot : assetPathOf docUrl types (i + j) s ∉
      assetPathsOf docUrl types (scripts.drop (j + 1)) (i + j + 1)) :
    lookupObj (processScripts docUrl types reg scripts i).1
        (assetPathOf docUrl types (i + j) s) = some (storedContentOf s) ∧
    (processScripts docUrl types reg scripts i).2[j]? =
      some { s with url := assetPathOf docUrl types (i + j) s,
                    transformed := none, content := none } ∧
    (∀ k, k ∉ assetPathsOf docUrl types scripts i →
      lookupObj (processScripts docUrl types reg scripts i).1 k = lookupObj reg k) :=
  ⟨(processScripts_registers docUrl types scripts i reg j s hj hc hnot).1,
   (processScripts_registers docUrl types scripts i reg j s hj hc hnot).2,
   fun k hk => processScripts_lookup_stable docUrl types scripts i reg k hk⟩

theorem c2_registry_roundtrip_witness :
    jsTruthyStr (ScriptNode.mk "text/javascript" (some "BODY") none "").content = true ∧
    lookupObj (processScripts "./comp.html" [("text/javascript", ".js")] []
          [ScriptNode.mk "text/javascript" (some "BODY") none ""] 0).1
        (assetPathOf "./comp.html" [("text/javascript", ".js")] 0
          (ScriptNode.mk "text/javascript" (some "BODY") none "")) =
      some (storedContentOf (ScriptNode.mk "text/javascript" (some "BODY") none "")) :=
  ⟨by decide,
   (c2_registry_roundtrip "./comp.html" [("text/javascript", ".js")] []
     [ScriptNode.mk "text/javascript" (some "BODY") none ""] 0 0
     (ScriptNode.mk "text/javascript" (some "BODY") none "")
     rfl (by decide) (by decide)).1⟩

/-- C2 is false as stated: when the parser hands back a script whose
`transformed` field is truthy, the registry stores
`script.transformed || script.content`, so `load` on the assigned path
returns the transformed text, not the original inline content. -/
theorem c2_registry_roundtrip_cx :
    lookupObj (processScripts "./comp.html" [("text/javascript", ".js")] []
        [ScriptNode.mk "text/javascript" (some "ORIG") (some "COMPILED") ""] 0).1
      "./comp_0.js" = some "COMPILED" ∧
    (some "COMPILED" : Option String) ≠ some "ORIG" := by
  constructor
  · decide
  · decide

/-! ### `transformResource` (`src/index.ts` lines 553-581) -/

/-- A finalized (plain-object) source map, modelled with the fields the
plugin reads. -/
structure RawMap where
  file : Option String
  mappings : String
  sourcesContent : List (String × String)
deriving DecidableEq

/-- The `source-map` library's `SourceMapGenerator`, modelled at interface
level: an in-progress builder whose `toJSON()` yields `json`; its
`addMapping` property is truthy. -/
structure SourceMapGenerator where
  json : RawMap
deriving DecidableEq

/-- A code-bearing field (`code` or `css`) of a transformer result: absent,
a string, or a `Buffer` (modelled by its decoded text). -/
inductive CodeField where
  | undef
  | str (s : String)
  | buf (text : String)
deriving DecidableEq

/-- A `map` field of a transformer result. -/
inductive MapField where
  | undef
  | str (s : String)
  | buf (text : String)
  | gen (g : SourceMapGenerator)
  | raw (m : RawMap)
deriving DecidableEq

/-- A transformer's return value (the source's `TransformedResource`
union: string, Buffer, or an object carrying `code`/`css`/`map`). -/
inductive TransformedResource where
  | str (s : String)
  | buf (text : String)
  | obj (code : CodeField) (css : CodeField) (map : MapField)
deriving DecidableEq

/-- JS truthiness of a code-bearing field: `undefined` and `""` are falsy,
a Buffer is an object and always truthy. -/
def jsTruthyCode : CodeField → Bool
  | .undef => false
  | .str s => !(s == "")
  | .buf _ => true

/-- Does the map value carry an `addMapping` method (i.e. is it a
`SourceMapGenerator` builder)? -/
def hasAddMapping : MapField → Bool
  | .gen _ => true
  | _ => false

/-- `transformResource` (`src/index.ts` lines 553-581). A string or Buffer
result is wrapped as `{ code: transformed }`; then
`code = result.css || result.code`, `map = result.map`; Buffers are
decoded to strings. The source then executes
`if (map && map.addMapping) { result.map = result.map.toJSON(); }` —
an assignment to `result.map` — but returns `{ code, map }` built from the
locals, so that assignment does not reach the returned value and is not
part of this model's output. -/
def transformResource (transformed : TransformedResource) : CodeField × MapField :=
  let result : TransformedResource := match transformed with
    | .str s => .obj (.str s) .undef .undef
    | .buf t => .obj (.buf t) .undef .undef
    | o => o
  match result with
  | .obj codeF cssF mapF =>
    let code0 := if jsTruthyCode cssF then cssF else codeF
    let code := match code0 with
      | .buf t => CodeField.str t
      | c => c
    let map := match mapF with
      | .buf t => MapField.str t
      | m => m
    (code, map)
  | .str s => (.str s, .undef)
  | .buf t => (.buf t, .undef)

/-- C4: `transformResource` normalizes strings, Buffers and the `css`/`code`
object shapes to a string-typed code, and decodes a Buffer map to a string
— but a map supplied as an in-progress builder (`SourceMapGenerator`) is
returned as the builder itself: the finalizing `toJSON()` is assigned to
`result.map` while the returned record is built from the stale local
`map`, so the claimed builder-to-finalized normalization never reaches the
caller. -/
theorem c4_transform_resource_normalization :
    (∀ s, transformResource (.str s) = (CodeField.str s, MapField.undef)) ∧
    (∀ t, transformResource (.buf t) = (CodeField.str t, MapField.undef)) ∧
    (∀ s css m, jsTruthyCode css = false →
      transformResource (.obj (.str s) css m) =
        transformResource (.obj (.str s) .undef m)) ∧
    (∀ s t, transformResource (.obj (.str s) .undef (.buf t)) =
      (CodeField.str s, MapField.str t)) ∧
    (∀ s g, transformResource (.obj (.str s) .undef (.gen g)) =
      (CodeField.str s, MapField.gen g) ∧
      hasAddMapping (transformResource (.obj (.str s) .undef (.gen g))).2 = true) := by
  refine ⟨fun s => rfl, fun t => rfl, ?_, fun s t => rfl, fun s g => ⟨rfl, rfl⟩⟩
  intro s css m hcss
  simp only [transformResource, hcss, Bool.false_eq_true, if_false]
  rfl

theorem c4_transform_resource_normalization_witness :
    jsTruthyCode CodeField.undef = false ∧
    transformResource (.obj (.str "x") .undef .undef) =
      transformResource (.obj (.str "x") .undef .undef) :=
  ⟨by decide,
   c4_transform_resource_normalization.2.2.1 "x" CodeField.undef MapField.undef
     (by decide)⟩

/-! ### `SourceNode` and `nodeFromTransformed` (`src/index.ts` lines 583-596) -/

/-- The `source-map` library's `SourceMapConsumer`, modelled at interface
level: the parsed map together with its embedded sources contents. -/
structure SourceMapConsumer where
  sourcesContent : List (String × String)
deriving DecidableEq

/-- The `source-map` library's `SourceNode`, modelled at interface level:
an ordered list of children (string chunks or nested nodes) and the
per-source-file contents registry written by `setSourceContent`. -/
inductive SourceNode where
  | mk (children : List (String ⊕ SourceNode))
       (sourceContents : List (String × String))

def SourceNode.children : SourceNode → List (String ⊕ SourceNode)
  | .mk c _ => c

def SourceNode.sourceContents : SourceNode → List (String × String)
  | .mk _ s => s

/-- `new SourceNode()`. -/
def SourceNode.empty : SourceNode := .mk [] []

/-- `node.add(string)`. -/
def SourceNode.addStr (n : SourceNode) (s : String) : SourceNode :=
  .mk (n.children ++ [Sum.inl s]) n.sourceContents

/-- `node.add(arrayOfNodes)`: each member is appended as a child. -/
def SourceNode.addNodes (n : SourceNode) (ns : List SourceNode) : SourceNode :=
  .mk (n.children ++ ns.map Sum.inr) n.sourceContents

/-- `node.setSourceContent(sourceFile, sourceContent)`: records the
content for that source file, overwriting an earlier entry for the same
file. -/
def SourceNode.setSourceContent (n : SourceNode) (sourceFile content : String) :
    SourceNode :=
  .mk n.children (objSet n.sourceContents sourceFile content)

/-- `SourceNode.fromStringWithSourceMap(code, consumer)`, at interface
level: a node carrying the code and the consumer's embedded sources
contents. -/
def SourceNode.fromStringWithSourceMap (code : String)
    (consumer : SourceMapConsumer) : SourceNode :=
  .mk [Sum.inl code] consumer.sourcesContent

/-- The embedded source content a fragment carries for a source file. -/
def sourceContentFor (n : SourceNode) (file : String) : Option String :=
  lookupObj n.sourceContents file

/-- The source's `TransformedResult` union: a plain string or
`{ code, map? }`, the map (when present) already in parsed form here. -/
inductive TransformedResult where
  | str (s : String)
  | codeWithMap (code : String) (map : Option RawMap)

/-- `nodeFromTransformed` (`src/index.ts` lines 583-596): build the
fragment node from the transformed result, then record the pre-transform
`source` text under `fileName`. -/
def nodeFromTransformed (data : TransformedResult) (source : String)
    (fileName : String) : SourceNode :=
  let node := match data with
    | .codeWithMap code (some m) =>
      SourceNode.fromStringWithSourceMap code ⟨m.sourcesContent⟩
    | .codeWithMap code none => SourceNode.empty.addStr code
    | .str s => SourceNode.empty.addStr s
  node.setSourceContent fileName source

/-- The corresponding step of the draft variant `src/unnamed/part_000`
(lines 109-116): there the external-stylesheet branch calls
`node.setSourceContent(content, fullId)` — the stylesheet text is passed
in the parameter position of the source FILE and the resolved path in the
position of the CONTENT. -/
def partZeroAttachContent (node : SourceNode) (content fullId : String) :
    SourceNode :=
  node.setSourceContent content fullId

theorem setSourceContent_lookup (n : SourceNode) (f c : String) :
    sourceContentFor (n.setSourceContent f c) f = some c := by
  unfold sourceContentFor SourceNode.setSourceContent
  cases n with
  | mk ch sc => exact lookupObj_objSet_self sc f c

/-- C5: in `src/index.ts` the fragment returned by `nodeFromTransformed`
always carries the pre-transform text as the embedded source content keyed
by the resolved path, whatever transforms ran; but the draft variant
`part_000` passes the two arguments of `setSourceContent` swapped, so
there the fragment keys the registry by the stylesheet TEXT and stores the
PATH as content — nothing is recorded under the resolved path. -/
theorem c5_fragment_source_content :
    (∀ data source fileName,
      sourceContentFor (nodeFromTransformed data source fileName) fileName =
        some source) ∧
    sourceContentFor
        (partZeroAttachContent SourceNode.empty ".btn color:red" "/proj/comp.css")
        "/proj/comp.css" = none ∧
    sourceContentFor
        (partZeroAttachContent SourceNode.empty ".btn color:red" "/proj/comp.css")
        ".btn color:red" = some "/proj/comp.css" := by
  refine ⟨?_, by decide, by decide⟩
  intro data source fileName
  unfold nodeFromTransformed
  exact setSourceContent_lookup _ _ _

/-! ### The host module graph and `walkModule` / `getTopologicalModuleList`
(`src/index.ts` lines 603-629) -/

/-- Rollup's per-module info as the plugin reads it. -/
structure ModuleInfo where
  id : String
  isEntry : Bool
  importedIds : List String
deriving DecidableEq

/-- The host module graph: the modules behind `getModuleIds` /
`getModuleInfo`, in `getModuleIds` order. -/
structure PluginGraph where
  modules : List ModuleInfo
deriving DecidableEq

/-- `plugin.getModuleInfo(id)`. An id rollup never handed out is totalized
to a module with no imports (rollup does not produce such lookups). -/
def getModuleInfo (g : PluginGraph) (mid : String) : ModuleInfo :=
  (g.modules.find? (fun m => m.id = mid)).getD ⟨mid, false, []⟩

/-- Every module id and every imported id occurring in the graph. -/
def graphUniverse (g : PluginGraph) : List String :=
  g.modules.map (fun m => m.id) ++ (g.modules.map (fun m => m.importedIds)).flatten

def graphBound (g : PluginGraph) : Nat := (graphUniverse g).length

/-- How many universe entries are not yet in the visited list. -/
def countOutside (g : PluginGraph) (lookup : List String) : Nat :=
  ((graphUniverse g).filter (fun x => !(lookup.contains x))).length

/-- The imported ids of a module id, as `walkModule` fetches them. -/
def importsOf (g : PluginGraph) (mid : String) : List String :=
  (getModuleInfo g mid).importedIds

/-- The `for (const dep of mod.importedIds)` loop of `walkModule`: each dep
not yet in the visited list is appended and handed to `walkDeeper` (the
recursion into the dep's own module, cut off by the fuel level). -/
def walkLoop (walkDeeper : String → List String → List String) :
    List String → List String → List String
  | [], lookup => lookup
  | dep :: rest, lookup =>
    if dep ∈ lookup then walkLoop walkDeeper rest lookup
    else walkLoop walkDeeper rest (walkDeeper dep (lookup ++ [dep]))

/-- `walkModule` (`src/index.ts` lines 621-629), fuel-indexed: the source
recursion `walkModule(plugin.getModuleInfo(dep), plugin, lookup)` is run to
depth `fuel`. The visited set makes any fuel of at least `graphBound g`
exact (theorem `c7_walk_terminates_visits_once`); `getTopologicalModuleList`
runs with that bound. -/
def walkModule (g : PluginGraph) : Nat → List String → List String → List String
  | 0, deps, lookup => walkLoop (fun _ lk => lk) deps lookup
  | f + 1, deps, lookup =>
    walkLoop (fun dep lk => walkModule g f (getModuleInfo g dep).importedIds lk)
      deps lookup

/-- JS `Set.prototype.add` on the insertion-ordered element list of a Set:
a present element is left in place, a new one is appended. -/
def jsSetAdd (lookup : List String) (x : String) : List String :=
  if x ∈ lookup then lookup else lookup ++ [x]

/-- Models `path.relative('./', moduleId)` for the relative module ids the
`entry` option is compared against: a leading `./` is removed. The
cwd-dependent behavior for absolute paths is outside this model. -/
def relativeDot (mid : String) : String :=
  if beginsWith mid "./" then String.mk (mid.data.drop 2) else mid

/-- The entry test
`mod.isEntry || entry && entry === path.relative('./', moduleId)`:
a falsy (absent or empty) `entry` option contributes nothing. -/
def jsEntryMatch (entryOpt : Option String) (mid : String) : Bool :=
  match entryOpt with
  | none => false
  | some e => !(e == "") && e == relativeDot mid

/-- The `entryModules` collection loop of `getTopologicalModuleList`
(lines 604-610). -/
def entryModules (g : PluginGraph) (entryOpt : Option String) : List ModuleInfo :=
  ((g.modules.map (fun m => m.id)).map (getModuleInfo g)).filter
    (fun m => m.isEntry || jsEntryMatch entryOpt m.id)

/-- `getTopologicalModuleList` (lines 603-619) at an explicit recursion
depth: seed the visited set with each entry id, then walk its imports. -/
def getTopologicalModuleListFuel (g : PluginGraph) (entryOpt : Option String)
    (fuel : Nat) : List String :=
  (entryModules g entryOpt).foldl
    (fun lookup m => walkModule g fuel m.importedIds (jsSetAdd lookup m.id)) []

/-- `getTopologicalModuleList` (lines 603-619): the recursion depth
`graphBound g` always suffices. -/
def getTopologicalModuleList (g : PluginGraph) (entryOpt : Option String) :
    List String :=
  getTopologicalModuleListFuel g entryOpt (graphBound g)

/-- Reachability along import edges. -/
def Reaches (g : PluginGraph) (x y : String) : Prop :=
  Relation.ReflTransGen (fun u v => v ∈ importsOf g u) x y

def entryIds (g : PluginGraph) (entryOpt : Option String) : List String :=
  (entryModules g entryOpt).map (fun m => m.id)

theorem getModuleInfo_id (g : PluginGraph) (mid : String) :
    (getModuleInfo g mid).id = mid := by
  unfold getModuleInfo
  cases h : g.modules.find? (fun m => m.id = mid) with
  | none => rfl
  | some m => simpa using List.find?_some h

theorem importsOf_subset (g : PluginGraph) (mid : String) :
    importsOf g mid ⊆ graphUniverse g := by
  unfold importsOf getModuleInfo
  cases h : g.modules.find? (fun m => m.id = mid) with
  | none => simp
  | some m =>
    intro x hx
    have hmem : m ∈ g.modules := List.mem_of_find?_eq_some h
    unfold graphUniverse
    refine List.mem_append_right _ ?_
    rw [List.mem_flatten]
    exact ⟨m.importedIds, List.mem_map_of_mem _ hmem, by simpa using hx⟩

theorem entryModules_spec (g : PluginGraph) (eo : Option String)
    (m : ModuleInfo) (hm : m ∈ entryModules g eo) :
    getModuleInfo g m.id = m ∧ m.importedIds ⊆ graphUniverse g := by
  unfold entryModules at hm
  have hm2 := List.mem_of_mem_filter hm
  rw [List.mem_map] at hm2
  obtain ⟨mid, _, hmid⟩ := hm2
  have hid : m.id = mid := by rw [← hmid, getModuleInfo_id]
  constructor
  · rw [hid, hmid]
  · have : m.importedIds = importsOf g mid := by rw [← hmid]; rfl
    rw [this]
    exact importsOf_subset g mid

theorem walkLoop_mono (wd : String → List String → List String)
    (hm : ∀ dep lk, lk ⊆ wd dep lk) :
    ∀ (deps lookup : List String), lookup ⊆ walkLoop wd deps lookup := by
  intro deps
  induction deps with
  | nil => intro lookup; exact fun x hx => hx
  | cons dep rest ih =>
    intro lookup
    rw [walkLoop]
    by_cases h : dep ∈ lookup
    · rw [if_pos h]; exact ih lookup
    · rw [if_neg h]
      intro x hx
      exact ih _ (hm dep _ (List.mem_append_left _ hx))

theorem walkLoop_nodup (wd : String → List String → List String)
    (hn : ∀ dep lk, lk.Nodup → (wd dep lk).Nodup) :
    ∀ (deps lookup : List String), lookup.Nodup →
      (walkLoop wd deps lookup).Nodup := by
  intro deps
  induction deps with
  | nil => intro lookup h; exact h
  | cons dep rest ih =>
    intro lookup h
    rw [walkLoop]
    by_cases hd : dep ∈ lookup
    · rw [if_pos hd]; exact ih lookup h
    · rw [if_neg hd]
      refine ih _ (hn dep _ ?_)
      rw [List.nodup_append]
      exact ⟨h, List.nodup_singleton dep, by simpa [List.disjoint_singleton] using hd⟩

theorem walkLoop_deps_mem (wd : String → List String → List String)
    (hm : ∀ dep lk, lk ⊆ wd dep lk) :
    ∀ (deps lookup : List String) (d : String), d ∈ deps →
      d ∈ walkLoop wd deps lookup := by
  intro deps
  induction deps with
  | nil => intro lookup d hd; cases hd
  | cons dep rest ih =>
    intro lookup d hd
    rw [walkLoop]
    rcases List.mem_cons.1 hd with h | h
    · subst h
      by_cases hdl : d ∈ lookup
      · rw [if_pos hdl]
        exact walkLoop_mono wd hm rest lookup hdl
      · rw [if_neg hdl]
        exact walkLoop_mono wd hm rest _
          (hm d _ (List.mem_append_right _ (List.mem_singleton_self d)))
    · by_cases hdl : dep ∈ lookup
      · rw [if_pos hdl]; exact ih lookup d h
      · rw [if_neg hdl]; exact ih _ d h

theorem walkLoop_sound (g : PluginGraph) (wd : String → List String → List String)
    (hs : ∀ dep lk x, x ∈ wd dep lk →
      x ∈ lk ∨ ∃ y ∈ importsOf g dep, Reaches g y x) :
    ∀ (deps lookup : List String) (x : String), x ∈ walkLoop wd deps lookup →
      x ∈ lookup ∨ ∃ d ∈ deps, Reaches g d x := by
  intro deps
  induction deps with
  | nil => intro lookup x hx; left; exact hx
  | cons dep rest ih =>
    intro lookup x hx
    rw [walkLoop] at hx
    by_cases hd : dep ∈ lookup
    · rw [if_pos hd] at hx
      rcases ih lookup x hx with h | ⟨d, hdr, hr⟩
      · left; exact h
      · right; exact ⟨d, List.mem_cons_of_mem dep hdr, hr⟩
    · rw [if_neg hd] at hx
      rcases ih _ x hx with h | ⟨d, hdr, hr⟩
      · rcases hs dep _ x h with h2 | ⟨y, hy, hr⟩
        · rcases List.mem_append.1 h2 with h3 | h3
          · left; exact h3
          · right
            refine ⟨dep, List.mem_cons_self dep rest, ?_⟩
            rw [show x = dep from List.mem_singleton.1 h3]
            exact Relation.ReflTransGen.refl
        · right
          exact ⟨dep, List.mem_cons_self dep rest, Relation.ReflTransGen.head hy hr⟩
      · right; exact ⟨d, List.mem_cons_of_mem dep hdr, hr⟩

theorem walkLoop_id_of_mem (wd : String → List String → List String) :
    ∀ (deps lookup : List String), (∀ d ∈ deps, d ∈ lookup) →
      walkLoop wd deps lookup = lookup := by
  intro deps
  induction deps with
  | nil => intro lookup _; rfl
  | cons dep rest ih =>
    intro lookup h
    rw [walkLoop, if_pos (h dep (List.mem_cons_self dep rest))]
    exact ih lookup (fun d hd => h d (List.mem_cons_of_mem dep hd))

/-! Fuel-level facts about `walkModule`. -/

theorem walkModule_mono (g : PluginGraph) :
    ∀ (fuel : Nat) (deps lookup : List String),
      lookup ⊆ walkModule g fuel deps lookup := by
  intro fuel
  induction fuel with
  | zero => exact walkLoop_mono _ (fun _ _ => fun x hx => hx)
  | succ f ih => exact walkLoop_mono _ (fun dep lk => ih _ lk)

theorem walkModule_nodup (g : PluginGraph) :
    ∀ (fuel : Nat) (deps lookup : List String), lookup.Nodup →
      (walkModule g fuel deps lookup).Nodup := by
  intro fuel
  induction fuel with
  | zero => exact walkLoop_nodup _ (fun _ _ h => h)
  | succ f ih => exact walkLoop_nodup _ (fun dep lk => ih _ lk)

theorem walkModule_deps_mem (g : PluginGraph) :
    ∀ (fuel : Nat) (deps lookup : List String) (d : String), d ∈ deps →
      d ∈ walkModule g fuel deps lookup := by
  intro fuel
  cases fuel with
  | zero => exact walkLoop_deps_mem _ (fun _ _ => fun x hx => hx)
  | succ f => exact walkLoop_deps_mem _ (fun dep lk => walkModule_mono g f _ lk)

theorem walkModule_sound (g : PluginGraph) :
    ∀ (fuel : Nat) (deps lookup : List String) (x : String),
      x ∈ walkModule g fuel deps lookup →
      x ∈ lookup ∨ ∃ d ∈ deps, Reaches g d x := by
  intro fuel
  induction fuel with
  | zero => exact walkLoop_sound g _ (fun dep lk x hx => Or.inl hx)
  | succ f ih =>
    refine walkLoop_sound g _ (fun dep lk x hx => ?_)
    rcases ih _ lk x hx with h | ⟨d, hd, hr⟩
    · left; exact h
    · right; exact ⟨d, hd, hr⟩

/-! Counting lemmas driving the fuel bound. -/

theorem countOutside_le_of_sub (g : PluginGraph) (l1 l2 : List String)
    (h : l1 ⊆ l2) : countOutside g l2 ≤ countOutside g l1 := by
  unfold countOutside
  refine List.Sublist.length_le (List.monotone_filter_right _ ?_)
  intro a ha
  simp only [Bool.not_eq_eq_eq_not, Bool.not_true, ← Bool.not_eq_true,
    List.elem_iff] at ha ⊢
  exact fun hmem => ha (h hmem)

theorem countOutside_append_lt (g : PluginGraph) (lookup : List String)
    (dep : String) (hU : dep ∈ graphUniverse g) (hno : dep ∉ lookup) :
    countOutside g (lookup ++ [dep]) < countOutside g lookup := by
  unfold countOutside
  have hsub : ((graphUniverse g).filter
      (fun x => !((lookup ++ [dep]).contains x))).Sublist
      ((graphUniverse g).filter (fun x => !(lookup.contains x))) := by
    refine List.monotone_filter_right _ ?_
    intro a ha
    simp only [Bool.not_eq_eq_eq_not, Bool.not_true, ← Bool.not_eq_true,
      List.elem_iff] at ha ⊢
    exact fun hmem => ha (List.mem_append_left _ hmem)
  refine Nat.lt_of_le_of_ne (List.Sublist.length_le hsub) (fun hlen => ?_)
  have heq := List.Sublist.eq_of_length hsub hlen
  have hd1 : dep ∈ (graphUniverse g).filter (fun x => !(lookup.contains x)) := by
    rw [List.mem_filter]
    exact ⟨hU, by simpa [List.elem_iff] using hno⟩
  rw [← heq, List.mem_filter] at hd1
  have := hd1.2
  simp only [Bool.not_eq_eq_eq_not, Bool.not_true, ← Bool.not_eq_true,
    List.elem_iff] at this
  exact this (List.mem_append_right _ (List.mem_singleton_self dep))

theorem countOutside_zero_mem (g : PluginGraph) (lookup : List String)
    (h : countOutside g lookup = 0) :
    ∀ x ∈ graphUniverse g, x ∈ lookup := by
  intro x hx
  by_contra hno
  have hmem : x ∈ (graphUniverse g).filter (fun y => !(lookup.contains y)) := by
    rw [List.mem_filter]
    exact ⟨hx, by simpa [List.elem_iff] using hno⟩
  unfold countOutside at h
  rw [List.length_eq_zero] at h
  rw [h] at hmem
  cases hmem

theorem countOutside_le_bound (g : PluginGraph) (lookup : List String) :
    countOutside g lookup ≤ graphBound g :=
  List.length_filter_le _ _

/-- The closure lemma for one pass of the dep loop, parameterized by what
the one-level-deeper recursion guarantees. -/
theorem walkLoop_closed (g : PluginGraph) (f : Nat)
    (wd : String → List String → List String)
    (hm : ∀ dep lk, lk ⊆ wd dep lk)
    (hwd : ∀ dep lk, countOutside g lk ≤ f →
      (∀ d ∈ importsOf g dep, d ∈ wd dep lk) ∧
      (∀ x ∈ wd dep lk, x ∈ lk ∨ importsOf g x ⊆ wd dep lk)) :
    ∀ (deps lookup : List String), deps ⊆ graphUniverse g →
      countOutside g lookup ≤ f + 1 →
      ∀ x ∈ walkLoop wd deps lookup,
        x ∈ lookup ∨ importsOf g x ⊆ walkLoop wd deps lookup := by
  intro deps
  induction deps with
  | nil => intro lookup _ _ x hx; left; exact hx
  | cons dep rest ih =>
    intro lookup hsub hcount x hx
    have hrest : rest ⊆ graphUniverse g :=
      fun d hd => hsub (List.mem_cons_of_mem dep hd)
    rw [walkLoop] at hx ⊢
    by_cases hd : dep ∈ lookup
    · rw [if_pos hd] at hx ⊢
      exact ih lookup hrest hcount x hx
    · rw [if_neg hd] at hx ⊢
      have hdU : dep ∈ graphUniverse g := hsub (List.mem_cons_self dep rest)
      have hc1 : countOutside g (lookup ++ [dep]) ≤ f := by
        have := countOutside_append_lt g lookup dep hdU hd
        omega
      have hc2 : countOutside g (wd dep (lookup ++ [dep])) ≤ f + 1 := by
        have := countOutside_le_of_sub g (lookup ++ [dep]) _ (hm dep _)
        omega
      have hmono : wd dep (lookup ++ [dep]) ⊆ walkLoop wd rest (wd dep (lookup ++ [dep])) :=
        walkLoop_mono wd hm rest _
      rcases ih _ hrest hc2 x hx with h | h
      · rcases (hwd dep (lookup ++ [dep]) hc1).2 x h with h2 | h2
        · rcases List.mem_append.1 h2 with h3 | h3
          · left; exact h3
          · right
            rw [show x = dep from List.mem_singleton.1 h3]
            intro d hdim
            exact hmono ((hwd dep (lookup ++ [dep]) hc1).1 d hdim)
        · right
          exact fun d hdim => hmono (h2 hdim)
      · right; exact h

/-- The closure and completeness core of `walkModule`: with enough fuel,
every dep of the call is visited, and every visited module outside the
initial list has all its imports visited. -/
theorem walkModule_closed (g : PluginGraph) :
    ∀ (fuel : Nat) (deps lookup : List String), deps ⊆ graphUniverse g →
      countOutside g lookup ≤ fuel →
      (∀ d ∈ deps, d ∈ walkModule g fuel deps lookup) ∧
      (∀ x ∈ walkModule g fuel deps lookup,
        x ∈ lookup ∨ importsOf g x ⊆ walkModule g fuel deps lookup) := by
  intro fuel
  induction fuel with
  | zero =>
    intro deps lookup hsub hcount
    have hall : ∀ d ∈ deps, d ∈ lookup :=
      fun d hd => countOutside_zero_mem g lookup (by omega) d (hsub hd)
    constructor
    · intro d hd
      rw [show walkModule g 0 deps lookup = lookup from
        walkLoop_id_of_mem _ deps lookup hall]
      exact hall d hd
    · intro x hx
      rw [show walkModule g 0 deps lookup = lookup from
        walkLoop_id_of_mem _ deps lookup hall] at hx
      left; exact hx
  | succ f ih =>
    intro deps lookup hsub hcount
    constructor
    · intro d hd
      exact walkModule_deps_mem g (f + 1) deps lookup d hd
    · refine walkLoop_closed g f _ (fun dep lk => walkModule_mono g f _ lk)
        (fun dep lk hc => ?_) deps lookup hsub hcount
      exact ih (getModuleInfo g dep).importedIds lk (importsOf_subset g dep) hc

/-! Fuel stability: the visited set caps the useful recursion depth. -/

theorem walkLoop_congr (g : PluginGraph) (f : Nat)
    (wd1 wd2 : String → List String → List String)
    (hm1 : ∀ dep lk, lk ⊆ wd1 dep lk)
    (hcong : ∀ dep lk, countOutside g lk ≤ f → wd1 dep lk = wd2 dep lk) :
    ∀ (deps lookup : List String), deps ⊆ graphUniverse g →
      countOutside g lookup ≤ f + 1 →
      walkLoop wd1 deps lookup = walkLoop wd2 deps lookup := by
  intro deps
  induction deps with
  | nil => intro lookup _ _; rfl
  | cons dep rest ih =>
    intro lookup hsub hcount
    have hrest : rest ⊆ graphUniverse g :=
      fun d hd => hsub (List.mem_cons_of_mem dep hd)
    rw [walkLoop, walkLoop]
    by_cases hd : dep ∈ lookup
    · rw [if_pos hd, if_pos hd]
      exact ih lookup hrest hcount
    · rw [if_neg hd, if_neg hd]
      have hdU : dep ∈ graphUniverse g := hsub (List.mem_cons_self dep rest)
      have hc1 : countOutside g (lookup ++ [dep]) ≤ f := by
        have := countOutside_append_lt g lookup dep hdU hd
        omega
      rw [← hcong dep (lookup ++ [dep]) hc1]
      refine ih _ hrest ?_
      have := countOutside_le_of_sub g (lookup ++ [dep]) _ (hm1 dep _)
      omega

theorem walkModule_succ_eq (g : PluginGraph) :
    ∀ (f : Nat) (deps lookup : List String), deps ⊆ graphUniverse g →
      countOutside g lookup ≤ f →
      walkModule g (f + 1) deps lookup = walkModule g f deps lookup := by
  intro f
  induction f with
  | zero =>
    intro deps lookup hsub hcount
    have hall : ∀ d ∈ deps, d ∈ lookup :=
      fun d hd => countOutside_zero_mem g lookup (by omega) d (hsub hd)
    rw [show walkModule g 1 deps lookup = lookup from
      walkLoop_id_of_mem _ deps lookup hall,
      show walkModule g 0 deps lookup = lookup from
      walkLoop_id_of_mem _ deps lookup hall]
  | succ f ih =>
    intro deps lookup hsub hcount
    refine walkLoop_congr g f _ _
      (fun dep lk => walkModule_mono g (f + 1) _ lk)
      (fun dep lk hc => ?_) deps lookup hsub hcount
    exact ih (getModuleInfo g dep).importedIds lk (importsOf_subset g dep) hc

theorem walkModule_eq_of_ge (g : PluginGraph) (f : Nat)
    (hf : graphBound g ≤ f) :
    ∀ (deps lookup : List String), deps ⊆ graphUniverse g →
      walkModule g f deps lookup = walkModule g (graphBound g) deps lookup := by
  induction f, hf using Nat.le_induction with
  | base => intro deps lookup _; rfl
  | succ f hf ih =>
    intro deps lookup hsub
    rw [walkModule_succ_eq g f deps lookup hsub
      (le_trans (countOutside_le_bound g lookup) hf)]
    exact ih deps lookup hsub

/-! Fold-level facts about `getTopologicalModuleList`. -/

theorem jsSetAdd_sub (lookup : List String) (x : String) :
    lookup ⊆ jsSetAdd lookup x := by
  unfold jsSetAdd
  split
  · exact fun y hy => hy
  · exact fun y hy => List.mem_append_left _ hy

theorem jsSetAdd_self_mem (lookup : List String) (x : String) :
    x ∈ jsSetAdd lookup x := by
  unfold jsSetAdd
  split
  · assumption
  · exact List.mem_append_right _ (List.mem_singleton_self x)

theorem jsSetAdd_nodup (lookup : List String) (x : String)
    (h : lookup.Nodup) : (jsSetAdd lookup x).Nodup := by
  unfold jsSetAdd
  split
  · exact h
  · rw [List.nodup_append]
    refine ⟨h, List.nodup_singleton x, ?_⟩
    simpa [List.disjoint_singleton] using (by assumption : ¬ x ∈ lookup)

theorem jsSetAdd_mem_cases (lookup : List String) (x y : String)
    (h : y ∈ jsSetAdd lookup x) : y ∈ lookup ∨ y = x := by
  unfold jsSetAdd at h
  split at h
  · left; exact h
  · rcases List.mem_append.1 h with h2 | h2
    · left; exact h2
    · right; exact List.mem_singleton.1 h2

theorem topFold_mono (g : PluginGraph) (fuel : Nat) :
    ∀ (ms : List ModuleInfo) (lookup : List String),
      lookup ⊆ ms.foldl
        (fun lk m => walkModule g fuel m.importedIds (jsSetAdd lk m.id)) lookup := by
  intro ms
  induction ms with
  | nil => intro lookup; exact fun x hx => hx
  | cons m rest ih =>
    intro lookup
    rw [List.foldl_cons]
    intro x hx
    exact ih _ (walkModule_mono g fuel _ _ (jsSetAdd_sub lookup m.id hx))

theorem topFold_nodup (g : PluginGraph) (fuel : Nat) :
    ∀ (ms : List ModuleInfo) (lookup : List String), lookup.Nodup →
      (ms.foldl
        (fun lk m => walkModule g fuel m.importedIds (jsSetAdd lk m.id)) lookup).Nodup := by
  intro ms
  induction ms with
  | nil => intro lookup h; exact h
  | cons m rest ih =>
    intro lookup h
    rw [List.foldl_cons]
    exact ih _ (walkModule_nodup g fuel _ _ (jsSetAdd_nodup lookup m.id h))

theorem topFold_entry_mem (g : PluginGraph) (fuel : Nat) :
    ∀ (ms : List ModuleInfo) (lookup : List String) (m : ModuleInfo), m ∈ ms →
      m.id ∈ ms.foldl
        (fun lk m => walkModule g fuel m.importedIds (jsSetAdd lk m.id)) lookup := by
  intro ms
  induction ms with
  | nil => intro lookup m hm; cases hm
  | cons m0 rest ih =>
    intro lookup m hm
    rw [List.foldl_cons]
    rcases List.mem_cons.1 hm with h | h
    · subst h
      exact topFold_mono g fuel rest _
        (walkModule_mono g fuel _ _ (jsSetAdd_self_mem lookup m.id))
    · exact ih _ m h

theorem topFold_closed (g : PluginGraph) :
    ∀ (ms : List ModuleInfo) (lookup : List String),
      (∀ m ∈ ms, getModuleInfo g m.id = m ∧ m.importedIds ⊆ graphUniverse g) →
      (∀ x ∈ lookup, importsOf g x ⊆ lookup) →
      ∀ x ∈ ms.foldl
        (fun lk m => walkModule g (graphBound g) m.importedIds (jsSetAdd lk m.id)) lookup,
        importsOf g x ⊆ ms.foldl
          (fun lk m => walkModule g (graphBound g) m.importedIds (jsSetAdd lk m.id)) lookup := by
  intro ms
  induction ms with
  | nil => intro lookup _ hcl x hx; exact hcl x hx
  | cons m rest ih =>
    intro lookup hms hcl
    rw [List.foldl_cons]
    have hm := hms m (List.mem_cons_self m rest)
    have hrest : ∀ m2 ∈ rest, getModuleInfo g m2.id = m2 ∧
        m2.importedIds ⊆ graphUniverse g :=
      fun m2 h2 => hms m2 (List.mem_cons_of_mem m h2)
    refine ih _ hrest ?_
    intro x hx
    have hwc := walkModule_closed g (graphBound g) m.importedIds
      (jsSetAdd lookup m.id) hm.2 (countOutside_le_bound g _)
    rcases hwc.2 x hx with h | h
    · rcases jsSetAdd_mem_cases lookup m.id x h with h2 | h2
      · intro d hd
        exact walkModule_mono g _ _ _ (jsSetAdd_sub lookup m.id (hcl x h2 hd))
      · intro d hd
        refine hwc.1 d ?_
        have himp : importsOf g x = m.importedIds := by
          unfold importsOf
          rw [h2, hm.1]
        rwa [himp] at hd
    · exact h

theorem topFold_sound (g : PluginGraph) (E : List String) :
    ∀ (ms : List ModuleInfo) (lookup : List String),
      (∀ m ∈ ms, getModuleInfo g m.id = m ∧ m.id ∈ E) →
      (∀ x ∈ lookup, ∃ e ∈ E, Reaches g e x) →
      ∀ x ∈ ms.foldl
        (fun lk m => walkModule g (graphBound g) m.importedIds (jsSetAdd lk m.id)) lookup,
        ∃ e ∈ E, Reaches g e x := by
  intro ms
  induction ms with
  | nil => intro lookup _ hinv x hx; exact hinv x hx
  | cons m rest ih =>
    intro lookup hms hinv
    rw [List.foldl_cons]
    have hm := hms m (List.mem_cons_self m rest)
    refine ih _ (fun m2 h2 => hms m2 (List.mem_cons_of_mem m h2)) ?_
    intro x hx
    rcases walkModule_sound g (graphBound g) m.importedIds _ x hx with h | ⟨d, hd, hr⟩
    · rcases jsSetAdd_mem_cases lookup m.id x h with h2 | h2
      · exact hinv x h2
      · refine ⟨m.id, hm.2, ?_⟩
        rw [h2]
        exact Relation.ReflTransGen.refl
    · refine ⟨m.id, hm.2, Relation.ReflTransGen.head ?_ hr⟩
      show d ∈ importsOf g m.id
      unfold importsOf
      rw [hm.1]
      exact hd

theorem topFold_fuel_congr (g : PluginGraph) (f : Nat) (hf : graphBound g ≤ f) :
    ∀ (ms : List ModuleInfo), (∀ m ∈ ms, m.importedIds ⊆ graphUniverse g) →
      ∀ lookup,
        ms.foldl (fun lk m => walkModule g f m.importedIds (jsSetAdd lk m.id)) lookup =
        ms.foldl (fun lk m =>
          walkModule g (graphBound g) m.importedIds (jsSetAdd lk m.id)) lookup := by
  intro ms
  induction ms with
  | nil => intro _ lookup; rfl
  | cons m rest ih =>
    intro hms lookup
    rw [List.foldl_cons, List.foldl_cons,
      walkModule_eq_of_ge g f hf m.importedIds _ (hms m (List.mem_cons_self m rest))]
    exact ih (fun m2 h2 => hms m2 (List.mem_cons_of_mem m h2)) _

/-- C7: for every host module graph, cyclic included, the traversal of
`getTopologicalModuleList` terminates — any recursion depth of at least
`graphBound g` produces the same list, so the visited set caps the
recursion — and that list holds each module reachable from the entry
modules exactly once (it has no duplicates and its members are exactly the
identities reachable from an entry, the entries themselves included via
reflexivity). -/
theorem c7_walk_terminates_visits_once (g : PluginGraph) (eo : Option String)
    (f : Nat) (hf : graphBound g ≤ f) :
    getTopologicalModuleListFuel g eo f = getTopologicalModuleList g eo ∧
    (getTopologicalModuleList g eo).Nodup ∧
    (∀ x, x ∈ getTopologicalModuleList g eo ↔
      ∃ e ∈ entryIds g eo, Reaches g e x) := by
  refine ⟨?_, ?_, ?_⟩
  · unfold getTopologicalModuleList getTopologicalModuleListFuel
    exact topFold_fuel_congr g f hf (entryModules g eo)
      (fun m hm => (entryModules_spec g eo m hm).2) []
  · exact topFold_nodup g (graphBound g) (entryModules g eo) [] List.nodup_nil
  · intro x
    constructor
    · intro hx
      refine topFold_sound g (entryIds g eo) (entryModules g eo) []
        (fun m hm => ⟨(entryModules_spec g eo m hm).1,
          List.mem_map_of_mem _ hm⟩)
        (fun y hy => absurd hy (List.not_mem_nil y)) x hx
    · rintro ⟨e, heE, hr⟩
      unfold entryIds at heE
      rw [List.mem_map] at heE
      obtain ⟨m, hmE, hme⟩ := heE
      have hclosed := topFold_closed g (entryModules g eo) []
        (fun m2 h2 => entryModules_spec g eo m2 h2)
        (fun y hy => absurd hy (List.not_mem_nil y))
      have hent : e ∈ getTopologicalModuleList g eo := by
        rw [← hme]
        exact topFold_entry_mem g (graphBound g) (entryModules g eo) [] m hmE
      clear hme hmE
      induction hr with
      | refl => exact hent
      | tail hab hbc ih => exact hclosed _ ih hbc

theorem c7_walk_terminates_visits_once_witness :
    graphBound (PluginGraph.mk
      [ModuleInfo.mk "A" true ["B"], ModuleInfo.mk "B" false ["A"]]) ≤
      graphBound (PluginGraph.mk
        [ModuleInfo.mk "A" true ["B"], ModuleInfo.mk "B" false ["A"]]) + 3 ∧
    getTopologicalModuleListFuel (PluginGraph.mk
        [ModuleInfo.mk "A" true ["B"], ModuleInfo.mk "B" false ["A"]]) none
      (graphBound (PluginGraph.mk
        [ModuleInfo.mk "A" true ["B"], ModuleInfo.mk "B" false ["A"]]) + 3) =
      getTopologicalModuleList (PluginGraph.mk
        [ModuleInfo.mk "A" true ["B"], ModuleInfo.mk "B" false ["A"]]) none ∧
    (getTopologicalModuleList (PluginGraph.mk
        [ModuleInfo.mk "A" true ["B"], ModuleInfo.mk "B" false ["A"]]) none).Nodup ∧
    getTopologicalModuleList (PluginGraph.mk
        [ModuleInfo.mk "A" true ["B"], ModuleInfo.mk "B" false ["A"]]) none =
      ["A", "B"] :=
  ⟨by decide,
   (c7_walk_terminates_visits_once (PluginGraph.mk
      [ModuleInfo.mk "A" true ["B"], ModuleInfo.mk "B" false ["A"]]) none
      _ (by decide)).1,
   (c7_walk_terminates_visits_once (PluginGraph.mk
      [ModuleInfo.mk "A" true ["B"], ModuleInfo.mk "B" false ["A"]]) none
      _ (le_refl _)).2.1,
   by decide⟩

/-! ### `generateBundle` (`src/index.ts` lines 494-549) -/

mutual

/-- The concatenated text of a fragment tree (`SourceNode.toString`). -/
def SourceNode.toStr : SourceNode → String
  | .mk cs _ => chunkListStr cs

/-- Concatenation over a child list. -/
def chunkListStr : List (String ⊕ SourceNode) → String
  | [] => ""
  | Sum.inl s :: rest => s ++ chunkListStr rest
  | Sum.inr n :: rest => SourceNode.toStr n ++ chunkListStr rest

end

/-- The state `generateBundle` reads: the `componentStyles` map in its
insertion order, the module graph (`some` exactly when the newer rollup
exposes `this.getModuleIds`), the `entry` and `css.name` options, and
`outputOptions.sourcemap`. `cssName` models the string form of
`options.css.name`; the function form receives the same `code`/`map` pair
without the appended `sourceMappingURL` comment. -/
structure BundleEnv where
  styles : List (String × List SourceNode)
  graph : Option PluginGraph
  entryOpt : Option String
  cssName : Option String
  sourcemap : Bool

/-- `componentStyles.get(k)` / `.has(k)`. -/
def lookupStyles (styles : List (String × List SourceNode)) (k : String) :
    Option (List SourceNode) :=
  (styles.find? (fun p => p.1 = k)).map (fun p => p.2)

/-- One iteration of the output loop: append the module's fragments when
the map holds some (`if componentStyles.has(moduleId)`). -/
def addStylesFor (styles : List (String × List SourceNode))
    (out : SourceNode) (mid : String) : SourceNode :=
  match lookupStyles styles mid with
  | some ns => out.addNodes ns
  | none => out

/-- `Array.from(componentStyles.keys()).sort()`: JS string sort is a
comparison sort, modelled by insertion sort over the string order (for the
map's unique keys any correct comparison sort gives this list). -/
def sortedKeys (styles : List (String × List SourceNode)) : List String :=
  List.insertionSort (fun a b => a ≤ b) (styles.map (fun p => p.1))

/-- The assembly loop of `generateBundle`: with a module graph, fragments
follow `getTopologicalModuleList` order; without one, sorted key order. -/
def assembleOutput (env : BundleEnv) : SourceNode :=
  match env.graph with
  | some g =>
    (getTopologicalModuleList g env.entryOpt).foldl
      (addStylesFor env.styles) SourceNode.empty
  | none =>
    (sortedKeys env.styles).foldl (addStylesFor env.styles) SourceNode.empty

/-- The produced artifact: the CSS text and, when a source map was
requested, the assembled node standing for `toStringWithSourceMap`'s map
(which the `source-map` library computes as a pure function of that
node). -/
structure BundleOutput where
  code : String
  map : Option SourceNode

/-- `generateBundle`: nothing without `options.css.name`; otherwise the
assembled bundle text — with the trailing `sourceMappingURL` comment when
a map is emitted alongside — and the map. -/
def generateBundle (env : BundleEnv) : Option BundleOutput :=
  match env.cssName with
  | none => none
  | some name =>
    let output := assembleOutput env
    if env.sourcemap then
      some ⟨output.toStr ++ "\n/*# sourceMappingURL=" ++ name ++ ".map */",
            some output⟩
    else
      some ⟨output.toStr, none⟩

theorem lookupStyles_cons (p : String × List SourceNode)
    (l : List (String × List SourceNode)) (k : String) :
    lookupStyles (p :: l) k =
      if p.1 = k then some p.2 else lookupStyles l k := by
  unfold lookupStyles
  rw [List.find?_cons]
  by_cases h : p.1 = k
  · simp [h]
  · simp [h]

theorem lookupStyles_perm (l1 l2 : List (String × List SourceNode))
    (hp : l1.Perm l2) :
    (l1.map (fun p => p.1)).Nodup →
      ∀ k, lookupStyles l1 k = lookupStyles l2 k := by
  induction hp with
  | nil => intro _ k; rfl
  | cons x hp ih =>
    intro hn k
    rw [List.map_cons, List.nodup_cons] at hn
    rw [lookupStyles_cons, lookupStyles_cons]
    by_cases h : x.1 = k
    · rw [if_pos h, if_pos h]
    · rw [if_neg h, if_neg h]
      exact ih hn.2 k
  | swap x y l =>
    intro hn k
    have hxy : y.1 ≠ x.1 := by
      rw [List.map_cons, List.map_cons, List.nodup_cons] at hn
      exact fun he => hn.1 (by rw [he]; exact List.mem_cons_self _ _)
    rw [lookupStyles_cons, lookupStyles_cons, lookupStyles_cons, lookupStyles_cons]
    by_cases hx : x.1 = k
    · have hy : ¬ y.1 = k := fun he => hxy (he.trans hx.symm)
      rw [if_pos hx, if_neg hy, if_pos hx]
    · by_cases hy : y.1 = k
      · rw [if_pos hy, if_neg hx, if_pos hy]
      · rw [if_neg hy, if_neg hx, if_neg hx, if_neg hy]
  | trans h1 h2 ih1 ih2 =>
    intro hn k
    rw [ih1 hn k]
    refine ih2 ?_ k
    rw [← (h1.map (fun p => p.1)).nodup_iff]
    exact hn

theorem assembleFold_congr (s1 s2 : List (String × List SourceNode))
    (hlk : ∀ k, lookupStyles s1 k = lookupStyles s2 k) :
    ∀ (mids : List String) (out : SourceNode),
      mids.foldl (addStylesFor s1) out = mids.foldl (addStylesFor s2) out := by
  intro mids
  induction mids with
  | nil => intro out; rfl
  | cons mid rest ih =>
    intro out
    rw [List.foldl_cons, List.foldl_cons]
    have : addStylesFor s1 out mid = addStylesFor s2 out mid := by
      unfold addStylesFor
      rw [hlk mid]
    rw [this]
    exact ih _

theorem sortedKeys_perm (s1 s2 : List (String × List SourceNode))
    (hp : s1.Perm s2) : sortedKeys s1 = sortedKeys s2 := by
  unfold sortedKeys
  refine List.eq_of_perm_of_sorted
    (((List.perm_insertionSort _ _).trans (hp.map (fun p => p.1))).trans
      (List.perm_insertionSort _ _).symm)
    (List.sorted_insertionSort _ _) (List.sorted_insertionSort _ _)

/-- C8: the bundle assembly is deterministic over the recorded state —
two runs over the same fragment map (any internal insertion order
presenting the same key-to-fragments association), the same module
graph and the same options produce byte-identical CSS text and an
identical map. -/
theorem c8_bundle_assembly_deterministic
    (s1 s2 : List (String × List SourceNode)) (graph : Option PluginGraph)
    (eo nm : Option String) (sm : Bool)
    (hp : s1.Perm s2) (hn : (s1.map (fun p => p.1)).Nodup) :
    generateBundle ⟨s1, graph, eo, nm, sm⟩ = generateBundle ⟨s2, graph, eo, nm, sm⟩ := by
  have hout : assembleOutput ⟨s1, graph, eo, nm, sm⟩ =
      assembleOutput ⟨s2, graph, eo, nm, sm⟩ := by
    unfold assembleOutput
    cases graph with
    | some g =>
      exact assembleFold_congr s1 s2 (lookupStyles_perm s1 s2 hp hn) _ _
    | none =>
      rw [show sortedKeys s1 = sortedKeys s2 from sortedKeys_perm s1 s2 hp]
      exact assembleFold_congr s1 s2 (lookupStyles_perm s1 s2 hp hn) _ _
  unfold generateBundle
  cases nm with
  | none => rfl
  | some name =>
    simp only [hout]

theorem c8_bundle_assembly_deterministic_witness :
    ([("a.css", [SourceNode.empty]), ("b.css", [SourceNode.empty])].Perm
      [("b.css", [SourceNode.empty]), ("a.css", [SourceNode.empty])]) ∧
    (([("a.css", [SourceNode.empty]), ("b.css", [SourceNode.empty])].map
      (fun p => p.1)).Nodup) ∧
    generateBundle ⟨[("a.css", [SourceNode.empty]), ("b.css", [SourceNode.empty])],
        none, none, some "bundle.css", true⟩ =
      generateBundle ⟨[("b.css", [SourceNode.empty]), ("a.css", [SourceNode.empty])],
        none, none, some "bundle.css", true⟩ :=
  ⟨List.Perm.swap _ _ _,
   by decide,
   c8_bundle_assembly_deterministic _ _ none none (some "bundle.css") true
     (List.Perm.swap _ _ _) (by decide)⟩

/-- C1 (amended): in the two-document build where `a.html` is the sole
entry and imports `b.html`, each owning one recorded stylesheet fragment,
the assembled bundle is `a.html`'s fragment followed by `b.html`'s — the
depth-first first-discovery order puts the entry itself first, so the
dependent precedes its dependency. -/
theorem c1_entry_fragment_first (fa fb : SourceNode) :
    generateBundle (BundleEnv.mk
      [("a.html", [fa]), ("b.html", [fb])]
      (some (PluginGraph.mk [ModuleInfo.mk "a.html" true ["b.html"],
                             ModuleInfo.mk "b.html" false []]))
      none (some "bundle.css") false) =
    some (BundleOutput.mk (fa.toStr ++ fb.toStr) none) := by
  have htop : getTopologicalModuleList (PluginGraph.mk
      [ModuleInfo.mk "a.html" true ["b.html"], ModuleInfo.mk "b.html" false []]) none
      = ["a.html", "b.html"] := by decide
  simp only [generateBundle, assembleOutput, htop]
  simp [addStylesFor, lookupStyles, SourceNode.addNodes, SourceNode.empty,
    SourceNode.toStr, chunkListStr, SourceNode.children, SourceNode.sourceContents,
    String.append_empty, String.append_assoc]

/-- C1 is false as stated: with `a.html`'s fragment rendering `"A"` and
`b.html`'s rendering `"B"`, the bundle text is `"AB"` — entry first — and
not `"BA"`, the dependency-before-dependent order the claim requires. -/
theorem c1_entry_fragment_first_cx :
    generateBundle (BundleEnv.mk
      [("a.html", [SourceNode.mk [Sum.inl "A"] []]),
       ("b.html", [SourceNode.mk [Sum.inl "B"] []])]
      (some (PluginGraph.mk [ModuleInfo.mk "a.html" true ["b.html"],
                             ModuleInfo.mk "b.html" false []]))
      none (some "bundle.css") false) =
      some (BundleOutput.mk "AB" none) ∧
    ("AB" : String) ≠ "BA" :=
  ⟨rfl, by decide⟩

end EndorphinPlugin
